import Mathlib

set_option maxHeartbeats 1000000

/-! Shallow embedding of the Yoga Veeras file-access front end (src/src/App.tsx).

The two pieces of logic the specification describes are embedded here:
the section classifier sortFilesIntoSections and the progressive
downloader handleDownload.  JavaScript arrays become lists, the
plain-object record of buckets becomes an insertion-ordered association
list, the Set and Map of download state become a list of keys and an
association list, and the asynchronous download routine becomes a pure
function from an environment describing the network responses to a
result record carrying the final state, the network events issued and
the sequence of progress values written for the key. -/

/-- An object record from the bucket listing.  All fields are optional,
exactly as in the S3Object interface of the source.  The timestamp is
abstracted to a natural number; it never influences the logic. -/
structure S3Object where
  Key : Option String
  Size : Option Nat
  LastModified : Option Nat
  deriving Repr, DecidableEq

/-- A display section produced by the classifier.  The field named
prefix in the source is called prefixKey here because prefix is a
reserved word in Lean. -/
structure FileSection where
  prefixKey : String
  displayName : String
  files : List S3Object
  deriving Repr, DecidableEq

/-- Lowercase ASCII letter test: the character class a-z of the regex
in the source. -/
def isLowerAlpha (c : Char) : Bool :=
  decide ('a' ≤ c) && decide (c ≤ 'z')

/-- Models the anchored regex match of the source, which captures two
lowercase letters followed by a hyphen at the start of the key and
returns the two captured letters. -/
def prefixMatch (key : String) : Option String :=
  match key.data with
  | c1 :: c2 :: c3 :: _ =>
      if isLowerAlpha c1 && isLowerAlpha c2 && (c3 == '-') then
        some (String.mk [c1, c2])
      else none
  | _ => none

/-- Code-point lexicographic strict comparison of character lists.
This models both the default JavaScript string sort and localeCompare;
on the ASCII keys this application handles the two orders coincide with
code-point order. -/
def charListLt : List Char → List Char → Bool
  | _, [] => false
  | [], _ :: _ => true
  | a :: as, b :: bs =>
      if a < b then true
      else if b < a then false
      else charListLt as bs

/-- Strict lexicographic comparison of strings by code points. -/
def strLt (a b : String) : Bool :=
  charListLt a.data b.data

/-- The key of a record with the empty-string default, as in the
expression (a.Key or the empty string) of the comparator in the
source. -/
def keyOf (f : S3Object) : String :=
  f.Key.getD ""

/-- The comparator used to sort section members: compare records by
key with the empty-string default. -/
def objLt (a b : S3Object) : Bool :=
  strLt (keyOf a) (keyOf b)

/-- Insert an element into a list, placing it before the first strictly
greater element; equal elements stay in front, which makes the derived
sort stable, as the JavaScript array sort is. -/
def insertSorted {α : Type} (lt : α → α → Bool) (x : α) : List α → List α
  | [] => [x]
  | y :: ys => if lt x y then x :: y :: ys else y :: insertSorted lt x ys

/-- Stable sort by repeated insertion, processing the input left to
right.  Models the JavaScript array sort with a comparator. -/
def stableSort {α : Type} (lt : α → α → Bool) (l : List α) : List α :=
  l.foldl (fun acc x => insertSorted lt x acc) []

/-- Uppercasing of a string character by character, modelling the
JavaScript toUpperCase call; the classifier only ever applies it to
two-letter lowercase ASCII prefixes, where the two agree. -/
def strToUpper (s : String) : String :=
  String.mk (s.data.map Char.toUpper)

/-- The record of buckets built by the classifier loop: an
insertion-ordered association list from prefix to the files pushed for
that prefix, modelling the plain JavaScript object indexed by
prefix. -/
abbrev Buckets := List (String × List S3Object)

/-- Push a file onto the bucket of a prefix, creating the bucket at the
end when the prefix is new: the JavaScript object keeps keys in
insertion order and push appends. -/
def pushAssoc (m : Buckets) (p : String) (f : S3Object) : Buckets :=
  match m with
  | [] => [(p, [f])]
  | (q, fs) :: rest =>
      if q = p then (q, fs ++ [f]) :: rest
      else (q, fs) :: pushAssoc rest p f

/-- One iteration of the forEach loop of sortFilesIntoSections: a
record without a key, or with the empty-string key, is skipped (the
JavaScript truthiness test); a key matching the prefix pattern goes to
the bucket of its prefix; any other key goes to the unsorted list. -/
def classifyStep (acc : Buckets × List S3Object) (f : S3Object) :
    Buckets × List S3Object :=
  match f.Key with
  | none => acc
  | some k =>
      if k = "" then acc
      else
        match prefixMatch k with
        | some p => (pushAssoc acc.1 p f, acc.2)
        | none => (acc.1, acc.2 ++ [f])

/-- Look up the bucket of a prefix; absent prefixes give the empty
bucket (the source only looks up prefixes it has inserted). -/
def lookupBucket (m : Buckets) (p : String) : List S3Object :=
  match m with
  | [] => []
  | (q, fs) :: rest => if q = p then fs else lookupBucket rest p

/-- The section classifier sortFilesIntoSections of the source: group
the records by two-letter prefix, then emit one section per prefix in
ascending prefix order with its members sorted by key, and finally the
unsorted section, only when it is non-empty, with its members sorted by
key. -/
def sortFilesIntoSections (files : List S3Object) : List FileSection :=
  let acc := files.foldl classifyStep ([], [])
  let secs := acc.1
  let unsorted := acc.2
  let sortedKeys := stableSort strLt (secs.map (fun b => b.1))
  let fileSections := sortedKeys.map (fun p =>
    { prefixKey := p, displayName := strToUpper p,
      files := stableSort objLt (lookupBucket secs p) })
  if 0 < unsorted.length then
    fileSections ++ [{ prefixKey := "unsorted", displayName := "Unsorted",
                       files := stableSort objLt unsorted }]
  else fileSections

/-- Whether a record passes the truthiness guard of the loop: a
defined, non-empty key. -/
def hasKey (f : S3Object) : Bool :=
  match f.Key with
  | none => false
  | some k => !(k == "")

/-- Whether a record reaches the regex test and fails it, landing in
the unsorted list. -/
def isUnsorted (f : S3Object) : Bool :=
  hasKey f && (prefixMatch (keyOf f)).isNone

/-- Whether a record lands in the bucket of the given prefix. -/
def goesToBucket (f : S3Object) (p : String) : Bool :=
  hasKey f && (prefixMatch (keyOf f) == some p)

/-- All members of all emitted sections, in emission order. -/
def allMembers (out : List FileSection) : List S3Object :=
  out.foldr (fun s acc => s.files ++ acc) []

/-- Concatenation of a list of lists, used to reason about the
members of all buckets or sections at once. -/
def joinAll {α : Type} (ls : List (List α)) : List α :=
  ls.foldr (fun l acc => l ++ acc) []

/-- The per-key download state of the app: the set of keys being
downloaded (the downloadingFiles Set) and the progress map (the
downloadProgress Map), both modelled as lists. -/
structure DownloadState where
  downloadingFiles : List String
  downloadProgress : List (String × Nat)
  deriving Repr, DecidableEq

/-- Network actions issued by handleDownload, recorded so that claims
about which requests happen can be stated: signing the URL, the fetch
of the signed URL, one read per delivered body chunk, and the one-shot
buffering of the whole body on the fallback path. -/
inductive NetEvent where
  | signRequest (key : String)
  | fetchRequest
  | readChunk
  | bufferBody
  deriving Repr, DecidableEq

/-- The environment a single download run observes: whether URL
signing succeeds (otherwise the sentinel URL is returned), whether the
response is ok, whether it exposes a readable body, the parsed
content-length (zero when the header is absent, empty or unparsable,
exactly as the source collapses those cases), the byte lengths of the
chunks the stream delivers, and whether the stream then errors instead
of completing. -/
structure DownloadEnv where
  signOk : Bool
  respOk : Bool
  hasBody : Bool
  total : Nat
  chunks : List Nat
  streamErr : Bool
  deriving Repr, DecidableEq

/-- The outcome of one handleDownload run: the final component state,
the network events issued, the successive progress values written for
the key (including the initial zero), and whether the run reached the
success log line. -/
structure DownloadResult where
  finalState : DownloadState
  events : List NetEvent
  progressTrace : List Nat
  success : Bool
  deriving Repr, DecidableEq

/-- Write a value for a key in the progress map, updating in place
when the key exists and appending otherwise, as a JavaScript Map
does. -/
def setProgress (m : List (String × Nat)) (k : String) (v : Nat) :
    List (String × Nat) :=
  match m with
  | [] => [(k, v)]
  | (q, w) :: rest =>
      if q = k then (q, v) :: rest else (q, w) :: setProgress rest k v

/-- Read the value of a key from the progress map. -/
def getProgress (m : List (String × Nat)) (k : String) : Option Nat :=
  match m with
  | [] => none
  | (q, w) :: rest => if q = k then some w else getProgress rest k

/-- JavaScript Math.round on the non-negative rational num / den,
that is round half up, evaluated over exact rationals.  The source
computes Math.round of loaded divided by total times one hundred; the
double rounding error never moves a value across a half-integer for
the inputs any claim here touches. -/
def jsRound (num den : Nat) : Nat :=
  (2 * num + den) / (2 * den)

/-- The finally block of handleDownload: remove the key from the
downloading set and delete its progress entry. -/
def clearKey (key : String) (st : DownloadState) : DownloadState :=
  { downloadingFiles := st.downloadingFiles.filter (fun q => !(q == key)),
    downloadProgress := st.downloadProgress.filter (fun e => !(e.1 == key)) }

/-- The streaming read loop of handleDownload: for each delivered
chunk, add its length to the running count and write the rounded
percentage for the key; returns the state after the loop together with
the list of progress values written, in order. -/
def streamLoop (key : String) (total : Nat) (chunks : List Nat)
    (loaded : Nat) (st : DownloadState) : DownloadState × List Nat :=
  match chunks with
  | [] => (st, [])
  | c :: rest =>
      let loaded1 := loaded + c
      let p := jsRound (100 * loaded1) total
      let st1 : DownloadState :=
        { st with downloadProgress := setProgress st.downloadProgress key p }
      let r := streamLoop key total rest loaded1 st1
      (r.1, p :: r.2)

/-- The download routine handleDownload of the source as a pure
function of the key, the network environment and the component state.
The guard returns at once when the key is already downloading.
Otherwise the key is added to the downloading set with progress zero,
the signed URL is requested (a signing failure returns early), the
URL is fetched (a non-ok response throws), and then either the body is
streamed chunk by chunk with progress updates, when a body is exposed
and the parsed total is positive, or the whole body is buffered in one
step.  Every path after the guard runs the finally block, which clears
the per-key state. -/
def handleDownload (key : String) (env : DownloadEnv) (st : DownloadState) :
    DownloadResult :=
  if st.downloadingFiles.contains key then
    { finalState := st, events := [], progressTrace := [], success := false }
  else
    let st1 : DownloadState :=
      { downloadingFiles := st.downloadingFiles ++ [key],
        downloadProgress := setProgress st.downloadProgress key 0 }
    if env.signOk = false then
      { finalState := clearKey key st1,
        events := [NetEvent.signRequest key],
        progressTrace := [0], success := false }
    else if env.respOk = false then
      { finalState := clearKey key st1,
        events := [NetEvent.signRequest key, NetEvent.fetchRequest],
        progressTrace := [0], success := false }
    else if env.hasBody ∧ 0 < env.total then
      let r := streamLoop key env.total env.chunks 0 st1
      { finalState := clearKey key r.1,
        events := NetEvent.signRequest key :: NetEvent.fetchRequest ::
          env.chunks.map (fun _ => NetEvent.readChunk),
        progressTrace := 0 :: r.2,
        success := !env.streamErr }
    else
      { finalState := clearKey key st1,
        events := [NetEvent.signRequest key, NetEvent.fetchRequest,
                   NetEvent.bufferBody],
        progressTrace := [0], success := true }

/-- Running byte totals after each chunk, starting from a given
count. -/
def runningTotals (chunks : List Nat) (acc : Nat) : List Nat :=
  match chunks with
  | [] => []
  | c :: rest => (acc + c) :: runningTotals rest (acc + c)

/-- Total byte count of a chunk list. -/
def sumChunks (chunks : List Nat) : Nat :=
  chunks.foldr (fun c acc => c + acc) 0

/-! Helper lemmas about the download embedding. -/

theorem contains_filter_ne (key : String) (l : List String) :
    (l.filter (fun q => !(q == key))).contains key = false := by
  induction l with
  | nil => rfl
  | cons a l ih =>
      by_cases h : a = key
      · simp [List.filter_cons, h, ih]
      · simp [List.filter_cons, h, ih, List.contains_cons]
        exact fun hk => absurd hk.symm h

theorem getProgress_filter_ne (key : String) (m : List (String × Nat)) :
    getProgress (m.filter (fun e => !(e.1 == key))) key = none := by
  induction m with
  | nil => rfl
  | cons e m ih =>
      by_cases h : e.1 = key
      · simp [List.filter_cons, h, ih]
      · simp [List.filter_cons, h, getProgress, ih]

theorem clearKey_contains (key : String) (st : DownloadState) :
    ((clearKey key st).downloadingFiles.contains key) = false :=
  contains_filter_ne key st.downloadingFiles

theorem clearKey_getProgress (key : String) (st : DownloadState) :
    getProgress (clearKey key st).downloadProgress key = none :=
  getProgress_filter_ne key st.downloadProgress

/-- C5: calling handleDownload for a key that is already in the
downloading set is a no-op: the state is returned unchanged and no
network request of any kind is issued. -/
theorem download_guard_noop (key : String) (env : DownloadEnv)
    (st : DownloadState) (h : st.downloadingFiles.contains key = true) :
    (handleDownload key env st).finalState = st ∧
    (handleDownload key env st).events = [] ∧
    (handleDownload key env st).progressTrace = [] := by
  have h2 : key ∈ st.downloadingFiles := by
    simpa using h
  simp [handleDownload, h2]

theorem download_guard_noop_witness :
    (handleDownload "k" ⟨true, true, true, 100, [50], false⟩
        ⟨["k"], [("k", 7)]⟩).finalState = ⟨["k"], [("k", 7)]⟩ ∧
    (handleDownload "k" ⟨true, true, true, 100, [50], false⟩
        ⟨["k"], [("k", 7)]⟩).events = [] ∧
    (handleDownload "k" ⟨true, true, true, 100, [50], false⟩
        ⟨["k"], [("k", 7)]⟩).progressTrace = [] :=
  download_guard_noop "k" ⟨true, true, true, 100, [50], false⟩
    ⟨["k"], [("k", 7)]⟩ (by decide)

/-- C6: whenever a download actually starts (the key was not already
downloading), the run ends with the key absent from the downloading
set and absent from the progress map, whatever the environment did:
signing failure, non-ok response, mid-stream error and success all pass
through the same cleanup. -/
theorem download_state_cleared (key : String) (env : DownloadEnv)
    (st : DownloadState) (h : st.downloadingFiles.contains key = false) :
    (handleDownload key env st).finalState.downloadingFiles.contains key
        = false ∧
    getProgress (handleDownload key env st).finalState.downloadProgress key
        = none := by
  unfold handleDownload
  rw [if_neg (fun hc => by rw [h] at hc; exact Bool.false_ne_true hc)]
  split
  · exact ⟨clearKey_contains key _, clearKey_getProgress key _⟩
  · split
    · exact ⟨clearKey_contains key _, clearKey_getProgress key _⟩
    · split
      · exact ⟨clearKey_contains key _, clearKey_getProgress key _⟩
      · exact ⟨clearKey_contains key _, clearKey_getProgress key _⟩

theorem download_state_cleared_witness :
    (handleDownload "k" ⟨true, true, true, 100, [50], false⟩
        ⟨["j"], [("j", 3)]⟩).finalState.downloadingFiles.contains "k"
        = false ∧
    getProgress (handleDownload "k" ⟨true, true, true, 100, [50], false⟩
        ⟨["j"], [("j", 3)]⟩).finalState.downloadProgress "k" = none :=
  download_state_cleared "k" ⟨true, true, true, 100, [50], false⟩
    ⟨["j"], [("j", 3)]⟩ (by decide)

theorem sumChunks_nil : sumChunks [] = 0 := rfl

theorem sumChunks_cons (c : Nat) (rest : List Nat) :
    sumChunks (c :: rest) = c + sumChunks rest := rfl

theorem streamLoop_trace (key : String) (total : Nat) :
    ∀ (chunks : List Nat) (loaded : Nat) (st : DownloadState),
      (streamLoop key total chunks loaded st).2
        = (runningTotals chunks loaded).map
            (fun l => jsRound (100 * l) total) := by
  intro chunks
  induction chunks with
  | nil => intro loaded st; rfl
  | cons c rest ih =>
      intro loaded st
      simp [streamLoop, runningTotals, ih]

theorem runningTotals_chain (chunks : List Nat) :
    ∀ acc : Nat, List.Chain' (· ≤ ·) (acc :: runningTotals chunks acc) := by
  induction chunks with
  | nil => intro acc; simp [runningTotals]
  | cons c rest ih =>
      intro acc
      rw [runningTotals]
      exact List.chain'_cons.mpr ⟨Nat.le_add_right acc c, ih (acc + c)⟩

theorem runningTotals_map_getLast (f : Nat → Nat) (chunks : List Nat) :
    ∀ (acc x : Nat), chunks ≠ [] →
      ((x :: (runningTotals chunks acc).map f).getLast?)
        = some (f (acc + sumChunks chunks)) := by
  induction chunks with
  | nil => intro acc x h; exact absurd rfl h
  | cons c rest ih =>
      intro acc x h
      rw [runningTotals, List.map_cons, List.getLast?_cons_cons]
      by_cases hr : rest = []
      · subst hr
        simp [runningTotals, sumChunks]
      · rw [ih (acc + c) (f (acc + c)) hr, sumChunks_cons, Nat.add_assoc]

theorem runningTotals_le (chunks : List Nat) :
    ∀ acc, ∀ l ∈ runningTotals chunks acc, l ≤ acc + sumChunks chunks := by
  induction chunks with
  | nil => intro acc l hl; simp [runningTotals] at hl
  | cons c rest ih =>
      intro acc l hl
      rw [runningTotals] at hl
      rcases List.mem_cons.mp hl with h | h
      · subst h
        rw [sumChunks_cons, ← Nat.add_assoc]
        exact Nat.le_add_right _ _
      · rw [sumChunks_cons, ← Nat.add_assoc]
        exact ih (acc + c) l h

theorem jsRound_mono (d a b : Nat) (h : a ≤ b) : jsRound a d ≤ jsRound b d := by
  unfold jsRound
  exact Nat.div_le_div_right (by omega)

theorem jsRound_total (d : Nat) (hd : 0 < d) : jsRound (100 * d) d = 100 := by
  unfold jsRound
  have h1 : 2 * (100 * d) + d = d + 2 * d * 100 := by ring
  rw [h1, Nat.add_mul_div_left _ _ (by omega : 0 < 2 * d),
      Nat.div_eq_of_lt (by omega : d < 2 * d)]

theorem jsRound_le_100 (d l : Nat) (hd : 0 < d) (h : l ≤ d) :
    jsRound (100 * l) d ≤ 100 := by
  have hm := jsRound_mono d (100 * l) (100 * d) (by omega)
  rw [jsRound_total d hd] at hm
  exact hm

theorem handleDownload_stream (key : String) (env : DownloadEnv)
    (st : DownloadState) (hg : st.downloadingFiles.contains key = false)
    (hs : env.signOk = true) (hr : env.respOk = true)
    (hb : env.hasBody = true) (ht : 0 < env.total) :
    (handleDownload key env st).progressTrace
        = 0 :: (runningTotals env.chunks 0).map
            (fun l => jsRound (100 * l) env.total) ∧
    (handleDownload key env st).events
        = NetEvent.signRequest key :: NetEvent.fetchRequest ::
            env.chunks.map (fun _ => NetEvent.readChunk) ∧
    (handleDownload key env st).success = !env.streamErr := by
  unfold handleDownload
  rw [if_neg (fun hc => by rw [hg] at hc; exact Bool.false_ne_true hc),
      if_neg (by simp [hs]), if_neg (by simp [hr]), if_pos ⟨hb, ht⟩]
  exact ⟨by simp only [streamLoop_trace], rfl, rfl⟩

theorem handleDownload_fallback (key : String) (env : DownloadEnv)
    (st : DownloadState) (hg : st.downloadingFiles.contains key = false)
    (hs : env.signOk = true) (hr : env.respOk = true)
    (hnb : ¬(env.hasBody = true ∧ 0 < env.total)) :
    (handleDownload key env st).progressTrace = [0] ∧
    (handleDownload key env st).events
        = [NetEvent.signRequest key, NetEvent.fetchRequest,
           NetEvent.bufferBody] ∧
    (handleDownload key env st).success = true := by
  unfold handleDownload
  rw [if_neg (fun hc => by rw [hg] at hc; exact Bool.false_ne_true hc),
      if_neg (by simp [hs]), if_neg (by simp [hr]), if_neg hnb]
  exact ⟨rfl, rfl, rfl⟩

theorem handleDownload_signFail (key : String) (env : DownloadEnv)
    (st : DownloadState) (hg : st.downloadingFiles.contains key = false)
    (hs : env.signOk = false) :
    (handleDownload key env st).progressTrace = [0] ∧
    (handleDownload key env st).events = [NetEvent.signRequest key] := by
  unfold handleDownload
  rw [if_neg (fun hc => by rw [hg] at hc; exact Bool.false_ne_true hc),
      if_pos hs]
  exact ⟨rfl, rfl⟩

theorem handleDownload_respFail (key : String) (env : DownloadEnv)
    (st : DownloadState) (hg : st.downloadingFiles.contains key = false)
    (hs : env.signOk = true) (hr : env.respOk = false) :
    (handleDownload key env st).progressTrace = [0] ∧
    (handleDownload key env st).events
        = [NetEvent.signRequest key, NetEvent.fetchRequest] := by
  unfold handleDownload
  rw [if_neg (fun hc => by rw [hg] at hc; exact Bool.false_ne_true hc),
      if_neg (by simp [hs]), if_pos hr]
  exact ⟨rfl, rfl⟩

/-- C2 counterexample: with a declared total of 200 bytes and a first
chunk of one byte, the code records the rounded percentage 1 after the
first chunk, while the floor of one two-hundredth of one hundred is 0,
so the progress values are not the floors the claim states. -/
theorem download_floor_counterexample :
    (handleDownload "k" ⟨true, true, true, 200, [1, 199], false⟩
        ⟨[], []⟩).progressTrace = [0, 1, 100] ∧
    (100 * 1) / 200 = 0 ∧
    (handleDownload "k" ⟨true, true, true, 200, [1, 199], false⟩
        ⟨[], []⟩).progressTrace
      ≠ [0, (100 * 1) / 200, (100 * 200) / 200] :=
  ⟨by decide, by decide, by decide⟩

/-- C2 (amended): when the response is ok, a body is exposed and the
declared total is positive, handleDownload streams the body chunk by
chunk, recording after every chunk the progress value round half up of
bytes read so far over the declared total times one hundred (round,
not floor); when no positive total is declared or no body is exposed,
it issues a single whole-body buffering step and records no progress
beyond the initial zero. -/
theorem download_stream_progress (key : String) (env : DownloadEnv)
    (st : DownloadState) (hg : st.downloadingFiles.contains key = false)
    (hs : env.signOk = true) (hr : env.respOk = true) :
    (env.hasBody = true → 0 < env.total →
      (handleDownload key env st).progressTrace
          = 0 :: (runningTotals env.chunks 0).map
              (fun l => jsRound (100 * l) env.total) ∧
      (handleDownload key env st).events
          = NetEvent.signRequest key :: NetEvent.fetchRequest ::
              env.chunks.map (fun _ => NetEvent.readChunk)) ∧
    (env.hasBody = false ∨ env.total = 0 →
      (handleDownload key env st).progressTrace = [0] ∧
      (handleDownload key env st).events
          = [NetEvent.signRequest key, NetEvent.fetchRequest,
             NetEvent.bufferBody]) := by
  constructor
  · intro hb ht
    have h := handleDownload_stream key env st hg hs hr hb ht
    exact ⟨h.1, h.2.1⟩
  · intro hnb
    have hn : ¬(env.hasBody = true ∧ 0 < env.total) := by
      rcases hnb with h | h
      · intro hc
        rw [h] at hc
        exact Bool.false_ne_true hc.1
      · intro hc
        rcases hc with ⟨_, hlt⟩
        omega
    have hf := handleDownload_fallback key env st hg hs hr hn
    exact ⟨hf.1, hf.2.1⟩

theorem download_stream_progress_witness :
    (handleDownload "k" ⟨true, true, true, 100, [60, 40], false⟩
        ⟨[], []⟩).progressTrace
        = 0 :: (runningTotals [60, 40] 0).map
            (fun l => jsRound (100 * l) 100) ∧
    (handleDownload "k" ⟨true, true, true, 100, [60, 40], false⟩
        ⟨[], []⟩).events
        = NetEvent.signRequest "k" :: NetEvent.fetchRequest ::
            ([60, 40] : List Nat).map (fun _ => NetEvent.readChunk) :=
  (download_stream_progress "k" ⟨true, true, true, 100, [60, 40], false⟩
    ⟨[], []⟩ (by decide) rfl rfl).1 rfl (by decide)

/-- C7 counterexample: a download with declared total 100 whose stream
completes after delivering only 50 bytes reaches the success path, yet
its last recorded progress value is 50, not 100, so the claim as
stated fails when the stream delivers fewer bytes than declared. -/
theorem download_final_progress_counterexample :
    (handleDownload "k" ⟨true, true, true, 100, [50], false⟩
        ⟨[], []⟩).success = true ∧
    (handleDownload "k" ⟨true, true, true, 100, [50], false⟩
        ⟨[], []⟩).progressTrace.getLast? = some 50 ∧
    (handleDownload "k" ⟨true, true, true, 100, [50], false⟩
        ⟨[], []⟩).progressTrace.getLast? ≠ some 100 :=
  ⟨by decide, by decide, by decide⟩

/-- C7 (amended): for a download with a declared positive total that
completes successfully and whose stream delivers exactly the declared
number of bytes, the recorded progress values are non-decreasing and
the last one is 100. -/
theorem download_progress_monotone (key : String) (env : DownloadEnv)
    (st : DownloadState) (hg : st.downloadingFiles.contains key = false)
    (hs : env.signOk = true) (hr : env.respOk = true)
    (hb : env.hasBody = true) (ht : 0 < env.total)
    (he : env.streamErr = false)
    (hsum : sumChunks env.chunks = env.total) :
    (handleDownload key env st).success = true ∧
    List.Chain' (· ≤ ·) (handleDownload key env st).progressTrace ∧
    (handleDownload key env st).progressTrace.getLast? = some 100 := by
  obtain ⟨htr, hev, hsuc⟩ := handleDownload_stream key env st hg hs hr hb ht
  have h0 : jsRound (100 * 0) env.total = 0 := by
    unfold jsRound
    rw [Nat.zero_add]
    exact Nat.div_eq_of_lt (by omega)
  refine ⟨by rw [hsuc, he]; rfl, ?_, ?_⟩
  · rw [htr]
    have hmap : List.Chain' (· ≤ ·)
        ((0 :: runningTotals env.chunks 0).map
          (fun l => jsRound (100 * l) env.total)) := by
      rw [List.chain'_map]
      exact (runningTotals_chain env.chunks 0).imp
        (fun a b hab => jsRound_mono env.total _ _ (by omega))
    rw [List.map_cons, h0] at hmap
    exact hmap
  · have hne : env.chunks ≠ [] := by
      intro hnil
      rw [hnil, sumChunks_nil] at hsum
      omega
    rw [htr, runningTotals_map_getLast _ env.chunks 0 0 hne, Nat.zero_add,
        hsum, jsRound_total env.total ht]

theorem download_progress_monotone_witness :
    (handleDownload "k" ⟨true, true, true, 100, [60, 40], false⟩
        ⟨[], []⟩).success = true ∧
    List.Chain' (· ≤ ·)
      (handleDownload "k" ⟨true, true, true, 100, [60, 40], false⟩
        ⟨[], []⟩).progressTrace ∧
    (handleDownload "k" ⟨true, true, true, 100, [60, 40], false⟩
        ⟨[], []⟩).progressTrace.getLast? = some 100 :=
  download_progress_monotone "k" ⟨true, true, true, 100, [60, 40], false⟩
    ⟨[], []⟩ (by decide) rfl rfl rfl (by decide) rfl (by decide)

/-- C8 counterexample: when the stream delivers 20 bytes against a
declared total of 10, the recorded progress value is 200, far above
100, so the claimed bound does not hold when delivery exceeds the
declared content length. -/
theorem download_progress_bound_counterexample :
    (handleDownload "k" ⟨true, true, true, 10, [20], false⟩
        ⟨[], []⟩).progressTrace = [0, 200] ∧
    ¬((200 : Nat) ≤ 100) :=
  ⟨by decide, by decide⟩

/-- C8 (amended): every progress value stored during a download is a
natural number at most 100, provided the stream never delivers more
bytes in total than the declared content length; without that proviso
the recorded value can exceed 100. -/
theorem download_progress_bound (key : String) (env : DownloadEnv)
    (st : DownloadState) (hsum : sumChunks env.chunks ≤ env.total) :
    ∀ p ∈ (handleDownload key env st).progressTrace, p ≤ 100 := by
  intro p hp
  cases hg : st.downloadingFiles.contains key with
  | true =>
      rw [(download_guard_noop key env st hg).2.2] at hp
      simp at hp
  | false =>
      cases hs : env.signOk with
      | false =>
          rw [(handleDownload_signFail key env st hg hs).1] at hp
          simp at hp
          omega
      | true =>
          cases hr : env.respOk with
          | false =>
              rw [(handleDownload_respFail key env st hg hs hr).1] at hp
              simp at hp
              omega
          | true =>
              by_cases hb : env.hasBody = true ∧ 0 < env.total
              · obtain ⟨htr, _, _⟩ :=
                  handleDownload_stream key env st hg hs hr hb.1 hb.2
                rw [htr] at hp
                rcases List.mem_cons.mp hp with h | h
                · omega
                · obtain ⟨l, hl, rfl⟩ := List.mem_map.mp h
                  have hle := runningTotals_le env.chunks 0 l hl
                  rw [Nat.zero_add] at hle
                  exact jsRound_le_100 env.total l hb.2 (le_trans hle hsum)
              · obtain ⟨htr, _, _⟩ :=
                  handleDownload_fallback key env st hg hs hr hb
                rw [htr] at hp
                simp at hp
                omega

theorem download_progress_bound_witness :
    (handleDownload "k" ⟨true, true, true, 10, [5, 5], false⟩
        ⟨[], []⟩).progressTrace = [0, 50, 100] ∧
    (100 : Nat) ≤ 100 :=
  ⟨by decide, download_progress_bound "k" ⟨true, true, true, 10, [5, 5], false⟩
    ⟨[], []⟩ (by decide) 100 (by decide)⟩

/-! Generic lemmas about the stable insertion sort. -/

theorem insertSorted_perm {α : Type} (lt : α → α → Bool) (x : α) :
    ∀ l : List α, (insertSorted lt x l).Perm (x :: l) := by
  intro l
  induction l with
  | nil => exact List.Perm.refl _
  | cons y ys ih =>
      rw [insertSorted]
      by_cases h : lt x y = true
      · rw [if_pos h]
      · rw [if_neg h]
        exact (ih.cons y).trans (List.Perm.swap x y ys)

theorem stableSort_foldl_perm {α : Type} (lt : α → α → Bool) :
    ∀ (l acc : List α),
      (l.foldl (fun a x => insertSorted lt x a) acc).Perm (acc ++ l) := by
  intro l
  induction l with
  | nil => intro acc; simp
  | cons x xs ih =>
      intro acc
      rw [List.foldl_cons]
      refine (ih (insertSorted lt x acc)).trans ?_
      refine ((insertSorted_perm lt x acc).append_right xs).trans ?_
      exact List.perm_middle.symm

theorem stableSort_perm {α : Type} (lt : α → α → Bool) (l : List α) :
    (stableSort lt l).Perm l := by
  have h := stableSort_foldl_perm lt l []
  simpa [stableSort] using h

theorem insertSorted_pairwise {α : Type} (lt : α → α → Bool)
    (htrans : ∀ a b c, lt a b = true → lt b c = true → lt a c = true)
    (hirr : ∀ a, lt a a = false) (x : α) :
    ∀ l : List α, l.Pairwise (fun a b => lt b a = false) →
      (insertSorted lt x l).Pairwise (fun a b => lt b a = false) := by
  intro l
  induction l with
  | nil => intro _; exact List.pairwise_singleton _ _
  | cons y ys ih =>
      intro hp
      obtain ⟨hy, hys⟩ := List.pairwise_cons.mp hp
      rw [insertSorted]
      by_cases h : lt x y = true
      · rw [if_pos h]
        refine List.pairwise_cons.mpr ⟨?_, hp⟩
        intro z hz
        rcases List.mem_cons.mp hz with rfl | hz2
        · cases hyx : lt z x with
          | false => rfl
          | true =>
              have hxx := htrans x z x h hyx
              rw [hirr x] at hxx
              exact absurd hxx Bool.false_ne_true
        · cases hzx : lt z x with
          | false => rfl
          | true =>
              have hzy := htrans z x y hzx h
              rw [hy z hz2] at hzy
              exact absurd hzy Bool.false_ne_true
      · rw [if_neg h]
        refine List.pairwise_cons.mpr ⟨?_, ih hys⟩
        intro z hz
        have hz2 : z ∈ x :: ys := (insertSorted_perm lt x ys).mem_iff.mp hz
        rcases List.mem_cons.mp hz2 with rfl | hz3
        · cases hxy : lt z y with
          | false => rfl
          | true => exact absurd hxy h
        · exact hy z hz3

theorem stableSort_pairwise {α : Type} (lt : α → α → Bool)
    (htrans : ∀ a b c, lt a b = true → lt b c = true → lt a c = true)
    (hirr : ∀ a, lt a a = false) (l : List α) :
    (stableSort lt l).Pairwise (fun a b => lt b a = false) := by
  have hgen : ∀ (l2 acc : List α),
      acc.Pairwise (fun a b => lt b a = false) →
      (l2.foldl (fun a x => insertSorted lt x a) acc).Pairwise
        (fun a b => lt b a = false) := by
    intro l2
    induction l2 with
    | nil => intro acc h; exact h
    | cons x xs ih =>
        intro acc h
        exact ih _ (insertSorted_pairwise lt htrans hirr x acc h)
  exact hgen l [] List.Pairwise.nil

theorem sorted_perm_eq {α : Type} (lt : α → α → Bool) :
    ∀ (l1 l2 : List α), l1.Perm l2 →
      l1.Pairwise (fun a b => lt b a = false) →
      l2.Pairwise (fun a b => lt b a = false) →
      (∀ a ∈ l1, ∀ b ∈ l1, lt a b = false → lt b a = false → a = b) →
      l1 = l2 := by
  intro l1
  induction l1 with
  | nil =>
      intro l2 hp _ _ _
      exact (hp.symm.eq_nil).symm
  | cons x xs ih =>
      intro l2 hp hs1 hs2 hconn
      cases l2 with
      | nil => exact absurd hp.eq_nil (by simp)
      | cons y ys =>
          have hxy : x = y := by
            by_contra hne
            have hxl2 : x ∈ y :: ys := hp.mem_iff.mp (List.mem_cons_self x xs)
            have hyl1 : y ∈ x :: xs := hp.mem_iff.mpr (List.mem_cons_self y ys)
            have hxys : x ∈ ys := by
              rcases List.mem_cons.mp hxl2 with h | h
              · exact absurd h hne
              · exact h
            have hyxs : y ∈ xs := by
              rcases List.mem_cons.mp hyl1 with h | h
              · exact absurd h.symm hne
              · exact h
            have h1 : lt x y = false := (List.pairwise_cons.mp hs2).1 x hxys
            have h2 : lt y x = false := (List.pairwise_cons.mp hs1).1 y hyxs
            exact hne (hconn x (List.mem_cons_self x xs) y
              (List.mem_cons_of_mem x hyxs) h1 h2)
          subst hxy
          have hxs : xs.Perm ys := hp.cons_inv
          have hrec := ih ys hxs (List.pairwise_cons.mp hs1).2
            (List.pairwise_cons.mp hs2).2
            (fun a ha b hb hab hba =>
              hconn a (List.mem_cons_of_mem x ha) b
                (List.mem_cons_of_mem x hb) hab hba)
          rw [hrec]

/-! The code-point comparison is a strict linear order. -/

theorem charListLt_irrefl : ∀ l : List Char, charListLt l l = false := by
  intro l
  induction l with
  | nil => rfl
  | cons a as ih =>
      rw [charListLt, if_neg (lt_irrefl a), if_neg (lt_irrefl a)]
      exact ih

theorem charListLt_trans : ∀ l1 l2 l3 : List Char,
    charListLt l1 l2 = true → charListLt l2 l3 = true →
    charListLt l1 l3 = true := by
  intro l1
  induction l1 with
  | nil =>
      intro l2 l3 h12 h23
      cases l3 with
      | nil =>
          cases l2 with
          | nil => exact h23
          | cons b bs => simp [charListLt] at h23
      | cons c cs => rfl
  | cons a as ih =>
      intro l2 l3 h12 h23
      cases l2 with
      | nil => simp [charListLt] at h12
      | cons b bs =>
          cases l3 with
          | nil => simp [charListLt] at h23
          | cons c cs =>
              rw [charListLt] at h12 h23 ⊢
              by_cases hab : a < b
              · by_cases hbc : b < c
                · rw [if_pos (lt_trans hab hbc)]
                · rw [if_neg hbc] at h23
                  by_cases hcb : c < b
                  · rw [if_pos hcb] at h23
                    exact absurd h23 Bool.false_ne_true
                  · have hbceq : b = c := le_antisymm (le_of_not_lt hcb)
                      (le_of_not_lt hbc)
                    subst hbceq
                    rw [if_pos hab]
              · rw [if_neg hab] at h12
                by_cases hba : b < a
                · rw [if_pos hba] at h12
                  exact absurd h12 Bool.false_ne_true
                · have habeq : a = b := le_antisymm (le_of_not_lt hba)
                    (le_of_not_lt hab)
                  subst habeq
                  rw [if_neg hab] at h12
                  by_cases hac : a < c
                  · rw [if_pos hac]
                  · rw [if_neg hac] at h23 ⊢
                    by_cases hca : c < a
                    · rw [if_pos hca] at h23
                      exact absurd h23 Bool.false_ne_true
                    · rw [if_neg hca] at h23 ⊢
                      exact ih bs cs h12 h23

theorem charListLt_conn : ∀ l1 l2 : List Char,
    charListLt l1 l2 = false → charListLt l2 l1 = false → l1 = l2 := by
  intro l1
  induction l1 with
  | nil =>
      intro l2 h12 h21
      cases l2 with
      | nil => rfl
      | cons b bs => simp [charListLt] at h12
  | cons a as ih =>
      intro l2 h12 h21
      cases l2 with
      | nil => simp [charListLt] at h21
      | cons b bs =>
          rw [charListLt] at h12 h21
          by_cases hab : a < b
          · rw [if_pos hab] at h12
            exact absurd h12 (Bool.false_ne_true ∘ Eq.symm)
          · rw [if_neg hab] at h12
            by_cases hba : b < a
            · rw [if_pos hba] at h21
              exact absurd h21 (Bool.false_ne_true ∘ Eq.symm)
            · rw [if_neg hba] at h12
              rw [if_neg hba, if_neg hab] at h21
              have habeq : a = b := le_antisymm (le_of_not_lt hba)
                (le_of_not_lt hab)
              rw [habeq, ih bs h12 h21]

theorem strLt_trans (a b c : String) (h1 : strLt a b = true)
    (h2 : strLt b c = true) : strLt a c = true :=
  charListLt_trans a.data b.data c.data h1 h2

theorem strLt_irrefl (a : String) : strLt a a = false :=
  charListLt_irrefl a.data

theorem strLt_conn (a b : String) (h1 : strLt a b = false)
    (h2 : strLt b a = false) : a = b := by
  have hd := charListLt_conn a.data b.data h1 h2
  cases a with
  | mk d1 =>
      cases b with
      | mk d2 => exact congrArg String.mk hd

theorem objLt_trans (a b c : S3Object) (h1 : objLt a b = true)
    (h2 : objLt b c = true) : objLt a c = true :=
  strLt_trans (keyOf a) (keyOf b) (keyOf c) h1 h2

theorem objLt_irrefl (a : S3Object) : objLt a a = false :=
  strLt_irrefl (keyOf a)

theorem objLt_key_eq (a b : S3Object) (h1 : objLt a b = false)
    (h2 : objLt b a = false) : keyOf a = keyOf b :=
  strLt_conn (keyOf a) (keyOf b) h1 h2

/-! Lemmas about the classifier fold. -/

theorem lookupBucket_pushAssoc (p q : String) (f : S3Object) :
    ∀ m : Buckets, lookupBucket (pushAssoc m q f) p
      = if q = p then lookupBucket m p ++ [f] else lookupBucket m p := by
  intro m
  induction m with
  | nil =>
      by_cases h : q = p
      · simp [pushAssoc, lookupBucket, h]
      · simp [pushAssoc, lookupBucket, h]
  | cons b rest ih =>
      obtain ⟨q1, fs⟩ := b
      by_cases h1 : q1 = q
      · subst h1
        by_cases h2 : q1 = p
        · subst h2
          simp [pushAssoc, lookupBucket]
        · simp [pushAssoc, lookupBucket, h2]
      · by_cases h2 : q1 = p
        · subst h2
          have hqp : ¬ q = q1 := fun h => h1 h.symm
          simp [pushAssoc, lookupBucket, h1, hqp]
        · simp [pushAssoc, lookupBucket, h1, h2, ih]

theorem classifyStep_none (acc : Buckets × List S3Object) (f : S3Object)
    (h : f.Key = none) : classifyStep acc f = acc := by
  simp [classifyStep, h]

theorem classifyStep_empty (acc : Buckets × List S3Object) (f : S3Object)
    (h : f.Key = some "") : classifyStep acc f = acc := by
  simp [classifyStep, h]

theorem classifyStep_bucket (acc : Buckets × List S3Object) (f : S3Object)
    (k q : String) (h : f.Key = some k) (hne : k ≠ "")
    (hm : prefixMatch k = some q) :
    classifyStep acc f = (pushAssoc acc.1 q f, acc.2) := by
  simp [classifyStep, h, hne, hm]

theorem classifyStep_unsorted (acc : Buckets × List S3Object) (f : S3Object)
    (k : String) (h : f.Key = some k) (hne : k ≠ "")
    (hm : prefixMatch k = none) :
    classifyStep acc f = (acc.1, acc.2 ++ [f]) := by
  simp [classifyStep, h, hne, hm]

theorem goesToBucket_noKey (f : S3Object) (p : String)
    (h : hasKey f = false) : goesToBucket f p = false := by
  simp [goesToBucket, h]

theorem isUnsorted_noKey (f : S3Object) (h : hasKey f = false) :
    isUnsorted f = false := by
  simp [isUnsorted, h]

theorem hasKey_none (f : S3Object) (h : f.Key = none) : hasKey f = false := by
  simp [hasKey, h]

theorem hasKey_empty (f : S3Object) (h : f.Key = some "") :
    hasKey f = false := by
  simp [hasKey, h]

theorem hasKey_some (f : S3Object) (k : String) (h : f.Key = some k)
    (hne : k ≠ "") : hasKey f = true := by
  simp [hasKey, h, hne]

theorem keyOf_some (f : S3Object) (k : String) (h : f.Key = some k) :
    keyOf f = k := by
  simp [keyOf, h]

theorem goesToBucket_some (f : S3Object) (k q : String) (h : f.Key = some k)
    (hne : k ≠ "") (hm : prefixMatch k = some q) (p : String) :
    goesToBucket f p = decide (q = p) := by
  by_cases hqp : q = p
  · subst hqp
    simp [goesToBucket, hasKey_some f k h hne, keyOf_some f k h, hm]
  · simp [goesToBucket, hasKey_some f k h hne, keyOf_some f k h, hm, hqp]

theorem goesToBucket_unsorted (f : S3Object) (k : String) (h : f.Key = some k)
    (hne : k ≠ "") (hm : prefixMatch k = none) (p : String) :
    goesToBucket f p = false := by
  simp [goesToBucket, keyOf_some f k h, hm]

theorem isUnsorted_some_match (f : S3Object) (k q : String)
    (h : f.Key = some k) (hne : k ≠ "") (hm : prefixMatch k = some q) :
    isUnsorted f = false := by
  simp [isUnsorted, keyOf_some f k h, hm]

theorem isUnsorted_some_nomatch (f : S3Object) (k : String)
    (h : f.Key = some k) (hne : k ≠ "") (hm : prefixMatch k = none) :
    isUnsorted f = true := by
  simp [isUnsorted, hasKey_some f k h hne, keyOf_some f k h, hm]

theorem foldl_unsorted :
    ∀ (files : List S3Object) (m : Buckets) (u : List S3Object),
      (files.foldl classifyStep (m, u)).2 = u ++ files.filter isUnsorted := by
  intro files
  induction files with
  | nil => intro m u; simp
  | cons f fs ih =>
      intro m u
      rw [List.foldl_cons]
      cases hk : f.Key with
      | none =>
          rw [classifyStep_none (m, u) f hk, ih, List.filter_cons,
            isUnsorted_noKey f (hasKey_none f hk)]
          simp
      | some k =>
          by_cases hke : k = ""
          · subst hke
            rw [classifyStep_empty (m, u) f hk, ih, List.filter_cons,
              isUnsorted_noKey f (hasKey_empty f hk)]
            simp
          · cases hm : prefixMatch k with
            | some q =>
                rw [classifyStep_bucket (m, u) f k q hk hke hm, ih,
                  List.filter_cons, isUnsorted_some_match f k q hk hke hm]
                simp
            | none =>
                rw [classifyStep_unsorted (m, u) f k hk hke hm, ih,
                  List.filter_cons, isUnsorted_some_nomatch f k hk hke hm]
                simp

theorem foldl_lookup (p : String) :
    ∀ (files : List S3Object) (m : Buckets) (u : List S3Object),
      lookupBucket ((files.foldl classifyStep (m, u)).1) p
        = lookupBucket m p ++ files.filter (fun f => goesToBucket f p) := by
  intro files
  induction files with
  | nil => intro m u; simp
  | cons f fs ih =>
      intro m u
      rw [List.foldl_cons]
      cases hk : f.Key with
      | none =>
          rw [classifyStep_none (m, u) f hk, ih, List.filter_cons,
            goesToBucket_noKey f p (hasKey_none f hk)]
          simp
      | some k =>
          by_cases hke : k = ""
          · subst hke
            rw [classifyStep_empty (m, u) f hk, ih, List.filter_cons,
              goesToBucket_noKey f p (hasKey_empty f hk)]
            simp
          · cases hm : prefixMatch k with
            | some q =>
                rw [classifyStep_bucket (m, u) f k q hk hke hm, ih,
                  lookupBucket_pushAssoc p q f m, List.filter_cons,
                  goesToBucket_some f k q hk hke hm p]
                by_cases hqp : q = p
                · rw [if_pos hqp]
                  simp [hqp]
                · rw [if_neg hqp]
                  simp [hqp]
            | none =>
                rw [classifyStep_unsorted (m, u) f k hk hke hm, ih,
                  List.filter_cons, goesToBucket_unsorted f k hk hke hm p]
                simp

theorem pushAssoc_keys_mem (q : String) (f : S3Object) :
    ∀ (m : Buckets) (p : String),
      p ∈ (pushAssoc m q f).map (fun b => b.1) ↔
        p ∈ m.map (fun b => b.1) ∨ p = q := by
  intro m
  induction m with
  | nil => intro p; simp [pushAssoc]
  | cons b rest ih =>
      obtain ⟨q1, fs⟩ := b
      intro p
      by_cases h : q1 = q
      · subst h
        have hrw : pushAssoc ((q1, fs) :: rest) q1 f
            = (q1, fs ++ [f]) :: rest := by
          simp [pushAssoc]
        rw [hrw, List.map_cons, List.map_cons]
        simp only [List.mem_cons]
        tauto
      · have hrw : pushAssoc ((q1, fs) :: rest) q f
            = (q1, fs) :: pushAssoc rest q f := by
          simp [pushAssoc, h]
        rw [hrw, List.map_cons, List.map_cons]
        simp only [List.mem_cons, ih p]
        tauto

theorem pushAssoc_keys_nodup (q : String) (f : S3Object) :
    ∀ m : Buckets, (m.map (fun b => b.1)).Nodup →
      ((pushAssoc m q f).map (fun b => b.1)).Nodup := by
  intro m
  induction m with
  | nil => intro _; simp [pushAssoc]
  | cons b rest ih =>
      obtain ⟨q1, fs⟩ := b
      intro hnd
      rw [List.map_cons, List.nodup_cons] at hnd
      obtain ⟨hq1, hrest⟩ := hnd
      by_cases h : q1 = q
      · subst h
        have hrw : pushAssoc ((q1, fs) :: rest) q1 f
            = (q1, fs ++ [f]) :: rest := by
          simp [pushAssoc]
        rw [hrw, List.map_cons, List.nodup_cons]
        exact ⟨hq1, hrest⟩
      · have hrw : pushAssoc ((q1, fs) :: rest) q f
            = (q1, fs) :: pushAssoc rest q f := by
          simp [pushAssoc, h]
        rw [hrw, List.map_cons, List.nodup_cons]
        refine ⟨?_, ih hrest⟩
        intro hmem
        rcases (pushAssoc_keys_mem q f rest q1).mp hmem with hin | heq
        · exact hq1 hin
        · exact h heq

theorem foldl_keys_nodup :
    ∀ (files : List S3Object) (m : Buckets) (u : List S3Object),
      (m.map (fun b => b.1)).Nodup →
      (((files.foldl classifyStep (m, u)).1).map (fun b => b.1)).Nodup := by
  intro files
  induction files with
  | nil => intro m u h; exact h
  | cons f fs ih =>
      intro m u h
      rw [List.foldl_cons]
      cases hk : f.Key with
      | none => rw [classifyStep_none (m, u) f hk]; exact ih m u h
      | some k =>
          by_cases hke : k = ""
          · subst hke
            rw [classifyStep_empty (m, u) f hk]
            exact ih m u h
          · cases hm : prefixMatch k with
            | some q =>
                rw [classifyStep_bucket (m, u) f k q hk hke hm]
                exact ih _ u (pushAssoc_keys_nodup q f m h)
            | none =>
                rw [classifyStep_unsorted (m, u) f k hk hke hm]
                exact ih m _ h

theorem foldl_keys_mem :
    ∀ (files : List S3Object) (m : Buckets) (u : List S3Object) (p : String),
      p ∈ ((files.foldl classifyStep (m, u)).1).map (fun b => b.1) ↔
        p ∈ m.map (fun b => b.1) ∨
          ∃ f, f ∈ files ∧ goesToBucket f p = true := by
  intro files
  induction files with
  | nil =>
      intro m u p
      simp
  | cons f fs ih =>
      intro m u p
      rw [List.foldl_cons]
      cases hk : f.Key with
      | none =>
          rw [classifyStep_none (m, u) f hk, ih]
          have hg : goesToBucket f p = false :=
            goesToBucket_noKey f p (hasKey_none f hk)
          simp only [List.mem_cons]
          constructor
          · intro hp
            rcases hp with hp | ⟨g, hg2, hg3⟩
            · exact Or.inl hp
            · exact Or.inr ⟨g, Or.inr hg2, hg3⟩
          · intro hp
            rcases hp with hp | ⟨g, hg2, hg3⟩
            · exact Or.inl hp
            · rcases hg2 with rfl | hg2
              · rw [hg] at hg3
                exact absurd hg3 Bool.false_ne_true
              · exact Or.inr ⟨g, hg2, hg3⟩
      | some k =>
          by_cases hke : k = ""
          · subst hke
            rw [classifyStep_empty (m, u) f hk, ih]
            have hg : goesToBucket f p = false :=
              goesToBucket_noKey f p (hasKey_empty f hk)
            simp only [List.mem_cons]
            constructor
            · intro hp
              rcases hp with hp | ⟨g, hg2, hg3⟩
              · exact Or.inl hp
              · exact Or.inr ⟨g, Or.inr hg2, hg3⟩
            · intro hp
              rcases hp with hp | ⟨g, hg2, hg3⟩
              · exact Or.inl hp
              · rcases hg2 with rfl | hg2
                · rw [hg] at hg3
                  exact absurd hg3 Bool.false_ne_true
                · exact Or.inr ⟨g, hg2, hg3⟩
          · cases hm : prefixMatch k with
            | some q =>
                rw [classifyStep_bucket (m, u) f k q hk hke hm, ih,
                  pushAssoc_keys_mem q f m p]
                have hg : goesToBucket f p = decide (q = p) :=
                  goesToBucket_some f k q hk hke hm p
                simp only [List.mem_cons]
                constructor
                · intro hp
                  rcases hp with (hp | hp) | ⟨g, hg2, hg3⟩
                  · exact Or.inl hp
                  · refine Or.inr ⟨f, Or.inl rfl, ?_⟩
                    rw [hg]
                    simp [hp.symm]
                  · exact Or.inr ⟨g, Or.inr hg2, hg3⟩
                · intro hp
                  rcases hp with hp | ⟨g, hg2, hg3⟩
                  · exact Or.inl (Or.inl hp)
                  · rcases hg2 with rfl | hg2
                    · rw [hg] at hg3
                      exact Or.inl (Or.inr (of_decide_eq_true hg3).symm)
                    · exact Or.inr ⟨g, hg2, hg3⟩
            | none =>
                rw [classifyStep_unsorted (m, u) f k hk hke hm, ih]
                have hg : goesToBucket f p = false :=
                  goesToBucket_unsorted f k hk hke hm p
                simp only [List.mem_cons]
                constructor
                · intro hp
                  rcases hp with hp | ⟨g, hg2, hg3⟩
                  · exact Or.inl hp
                  · exact Or.inr ⟨g, Or.inr hg2, hg3⟩
                · intro hp
                  rcases hp with hp | ⟨g, hg2, hg3⟩
                  · exact Or.inl hp
                  · rcases hg2 with rfl | hg2
                    · rw [hg] at hg3
                      exact absurd hg3 Bool.false_ne_true
                    · exact Or.inr ⟨g, hg2, hg3⟩

/-! Joining lists of lists: congruence and the partition argument. -/

theorem joinAll_nil {α : Type} : joinAll ([] : List (List α)) = [] := rfl

theorem joinAll_cons {α : Type} (l : List α) (ls : List (List α)) :
    joinAll (l :: ls) = l ++ joinAll ls := rfl

theorem joinAll_map_nil {α β : Type} :
    ∀ ks : List β, joinAll (ks.map (fun _ => ([] : List α))) = [] := by
  intro ks
  induction ks with
  | nil => rfl
  | cons k rest ih => rw [List.map_cons, joinAll_cons, ih]; rfl

theorem allMembers_join (out : List FileSection) :
    allMembers out = joinAll (out.map (fun s => s.files)) := by
  induction out with
  | nil => rfl
  | cons s rest ih =>
      rw [List.map_cons, joinAll_cons, ← ih]
      rfl

theorem joinAll_perm_of_perm {α : Type} (ls1 ls2 : List (List α))
    (h : ls1.Perm ls2) : (joinAll ls1).Perm (joinAll ls2) := by
  induction h with
  | nil => exact List.Perm.refl _
  | cons x _ ih =>
      rw [joinAll_cons, joinAll_cons]
      exact ih.append_left x
  | swap x y l =>
      rw [joinAll_cons, joinAll_cons, joinAll_cons, joinAll_cons,
        ← List.append_assoc, ← List.append_assoc]
      exact List.perm_append_comm.append_right (joinAll l)
  | trans _ _ ih1 ih2 => exact ih1.trans ih2

theorem joinAll_map_sort_perm {α : Type} (lt : α → α → Bool)
    (A : String → List α) :
    ∀ ks : List String,
      (joinAll (ks.map (fun p => stableSort lt (A p)))).Perm
        (joinAll (ks.map A)) := by
  intro ks
  induction ks with
  | nil => exact List.Perm.refl _
  | cons k rest ih =>
      rw [List.map_cons, List.map_cons, joinAll_cons, joinAll_cons]
      exact (stableSort_perm lt (A k)).append ih

theorem joinAll_insert_perm {α : Type} (f : α) (A : String → List α)
    (q : String) :
    ∀ ks : List String, ks.Nodup → q ∈ ks →
      (joinAll (ks.map (fun p => if p = q then f :: A p else A p))).Perm
        (f :: joinAll (ks.map A)) := by
  intro ks
  induction ks with
  | nil => intro _ h; simp at h
  | cons k rest ih =>
      intro hnd hq
      rw [List.map_cons, List.map_cons, joinAll_cons, joinAll_cons]
      by_cases hk : k = q
      · rw [if_pos hk]
        have hqrest : q ∉ rest := by
          rw [← hk]
          exact (List.nodup_cons.mp hnd).1
        have hrest : rest.map (fun p => if p = q then f :: A p else A p)
            = rest.map A := by
          apply List.map_congr_left
          intro p hp
          rw [if_neg (fun hpq => hqrest (by rw [← hpq]; exact hp))]
        rw [hrest]
        exact List.Perm.refl _
      · rw [if_neg hk]
        have hq2 : q ∈ rest := by
          rcases List.mem_cons.mp hq with h | h
          · exact absurd h.symm hk
          · exact h
        refine ((ih (List.nodup_cons.mp hnd).2 hq2).append_left (A k)).trans ?_
        exact List.perm_middle

theorem classify_partition_perm :
    ∀ (files : List S3Object) (ks : List String), ks.Nodup →
      (∀ f ∈ files, ∀ p, goesToBucket f p = true → p ∈ ks) →
      (joinAll (ks.map (fun p => files.filter (fun f => goesToBucket f p)))
          ++ files.filter isUnsorted).Perm
        (files.filter hasKey) := by
  intro files
  induction files with
  | nil =>
      intro ks _ _
      have h1 : ks.map (fun p =>
          ([] : List S3Object).filter (fun f => goesToBucket f p))
          = ks.map (fun _ => ([] : List S3Object)) := by
        apply List.map_congr_left
        intro p _
        rfl
      rw [h1, joinAll_map_nil]
      exact List.Perm.refl _
  | cons f fs ih =>
      intro ks hnd hcov
      have hcov2 : ∀ g ∈ fs, ∀ p, goesToBucket g p = true → p ∈ ks :=
        fun g hg p hgp => hcov g (List.mem_cons_of_mem f hg) p hgp
      cases hhk : hasKey f with
      | false =>
          have hmap : ks.map (fun p =>
              (f :: fs).filter (fun g => goesToBucket g p))
              = ks.map (fun p => fs.filter (fun g => goesToBucket g p)) := by
            apply List.map_congr_left
            intro p _
            rw [List.filter_cons, goesToBucket_noKey f p hhk]
            simp
          rw [hmap, List.filter_cons, List.filter_cons,
            isUnsorted_noKey f hhk, hhk]
          simp only [Bool.false_eq_true, if_false]
          exact ih ks hnd hcov2
      | true =>
          cases hm : prefixMatch (keyOf f) with
          | some q =>
              have hq : q ∈ ks := by
                refine hcov f (List.mem_cons_self f fs) q ?_
                simp [goesToBucket, hhk, hm]
              have hmap : ks.map (fun p =>
                  (f :: fs).filter (fun g => goesToBucket g p))
                  = ks.map (fun p =>
                      if p = q then
                        f :: fs.filter (fun g => goesToBucket g p)
                      else fs.filter (fun g => goesToBucket g p)) := by
                apply List.map_congr_left
                intro p _
                by_cases hpq : p = q
                · subst hpq
                  rw [List.filter_cons, if_pos rfl,
                    show goesToBucket f p = true from by
                      simp [goesToBucket, hhk, hm]]
                  simp
                · rw [List.filter_cons, if_neg hpq,
                    show goesToBucket f p = false from by
                      simp [goesToBucket, hhk, hm]
                      exact fun hqp => hpq hqp.symm]
                  simp
              have hiu : isUnsorted f = false := by
                simp [isUnsorted, hhk, hm]
              rw [hmap, List.filter_cons, hiu, List.filter_cons, hhk]
              simp only [Bool.false_eq_true, if_false, if_pos]
              refine ((joinAll_insert_perm f
                (fun p => fs.filter (fun g => goesToBucket g p)) q ks hnd
                  hq).append_right (fs.filter isUnsorted)).trans ?_
              exact (ih ks hnd hcov2).cons f
          | none =>
              have hmap : ks.map (fun p =>
                  (f :: fs).filter (fun g => goesToBucket g p))
                  = ks.map (fun p => fs.filter (fun g => goesToBucket g p)) := by
                apply List.map_congr_left
                intro p _
                rw [List.filter_cons,
                  show goesToBucket f p = false from by
                    simp [goesToBucket, hhk, hm]]
                simp
              have hiu : isUnsorted f = true := by
                simp [isUnsorted, hhk, hm]
              rw [hmap, List.filter_cons, hiu, List.filter_cons, hhk]
              simp only [if_pos]
              refine List.perm_middle.trans ?_
              exact (ih ks hnd hcov2).cons f

theorem sortFilesIntoSections_eq (files : List S3Object) :
    sortFilesIntoSections files =
      (stableSort strLt (((files.foldl classifyStep ([], [])).1).map
          (fun b => b.1))).map (fun p =>
        { prefixKey := p, displayName := strToUpper p,
          files := stableSort objLt
            (lookupBucket (files.foldl classifyStep ([], [])).1 p) })
      ++ (if 0 < ((files.foldl classifyStep ([], [])).2).length then
            [{ prefixKey := "unsorted", displayName := "Unsorted",
               files := stableSort objLt
                 (files.foldl classifyStep ([], [])).2 }]
          else []) := by
  unfold sortFilesIntoSections
  by_cases h : 0 < ((files.foldl classifyStep ([], [])).2).length
  · rw [if_pos h, if_pos h]
  · rw [if_neg h, if_neg h, List.append_nil]

theorem hasKey_some_exists (x : S3Object) (h : hasKey x = true) :
    ∃ k, x.Key = some k ∧ k ≠ "" := by
  unfold hasKey at h
  cases hk : x.Key with
  | none =>
      rw [hk] at h
      exact absurd h Bool.false_ne_true
  | some k =>
      rw [hk] at h
      refine ⟨k, rfl, ?_⟩
      intro he
      subst he
      simp at h

theorem goesToBucket_prefixMatch (f : S3Object) (p : String)
    (h : goesToBucket f p = true) : prefixMatch (keyOf f) = some p := by
  unfold goesToBucket at h
  obtain ⟨_, h2⟩ := Bool.and_eq_true_iff.mp h
  exact eq_of_beq h2

theorem goesToBucket_hasKey (f : S3Object) (p : String)
    (h : goesToBucket f p = true) : hasKey f = true :=
  (Bool.and_eq_true_iff.mp h).1

theorem isUnsorted_hasKey (f : S3Object) (h : isUnsorted f = true) :
    hasKey f = true :=
  (Bool.and_eq_true_iff.mp h).1

theorem prefixMatch_shape (k p : String) (h : prefixMatch k = some p) :
    ∃ c1 c2, p = String.mk [c1, c2] ∧ isLowerAlpha c1 = true ∧
      isLowerAlpha c2 = true := by
  unfold prefixMatch at h
  cases hd : k.data with
  | nil => rw [hd] at h; simp at h
  | cons c1 t1 =>
      cases t1 with
      | nil => rw [hd] at h; simp at h
      | cons c2 t2 =>
          cases t2 with
          | nil => rw [hd] at h; simp at h
          | cons c3 t3 =>
              rw [hd] at h
              change (if (isLowerAlpha c1 && isLowerAlpha c2
                  && (c3 == '-')) = true then
                    some (String.mk [c1, c2]) else none) = some p at h
              by_cases hc : (isLowerAlpha c1 && isLowerAlpha c2
                  && (c3 == '-')) = true
              · rw [if_pos hc] at h
                obtain ⟨h12, _⟩ := Bool.and_eq_true_iff.mp hc
                obtain ⟨h1, h2⟩ := Bool.and_eq_true_iff.mp h12
                exact ⟨c1, c2, (Option.some.inj h).symm, h1, h2⟩
              · rw [if_neg hc] at h
                simp at h

theorem section_files_form (files : List S3Object) :
    ∀ s ∈ sortFilesIntoSections files,
      (∃ p, s.files = stableSort objLt
          (files.filter (fun f => goesToBucket f p))) ∨
      s.files = stableSort objLt (files.filter isUnsorted) := by
  intro s hs
  rw [sortFilesIntoSections_eq] at hs
  rcases List.mem_append.mp hs with h | h
  · obtain ⟨p, hp, hps⟩ := List.mem_map.mp h
    left
    refine ⟨p, ?_⟩
    rw [← hps]
    show stableSort objLt
        (lookupBucket (files.foldl classifyStep ([], [])).1 p) = _
    rw [foldl_lookup p files [] []]
    rfl
  · by_cases hc : 0 < ((files.foldl classifyStep ([], [])).2).length
    · rw [if_pos hc] at h
      have hse := List.mem_singleton.mp h
      rw [hse]
      right
      show stableSort objLt (files.foldl classifyStep ([], [])).2 = _
      rw [foldl_unsorted files [] []]
      rfl
    · rw [if_neg hc] at h
      simp at h

theorem section_mem_src (files : List S3Object) :
    ∀ s ∈ sortFilesIntoSections files, ∀ x ∈ s.files,
      x ∈ files ∧ hasKey x = true := by
  intro s hs x hx
  rcases section_files_form files s hs with ⟨p, hform⟩ | hform
  · rw [hform] at hx
    have hx2 := (stableSort_perm objLt _).mem_iff.mp hx
    obtain ⟨hmem, hgo⟩ := List.mem_filter.mp hx2
    exact ⟨hmem, goesToBucket_hasKey x p hgo⟩
  · rw [hform] at hx
    have hx2 := (stableSort_perm objLt _).mem_iff.mp hx
    obtain ⟨hmem, hiu⟩ := List.mem_filter.mp hx2
    exact ⟨hmem, isUnsorted_hasKey x hiu⟩

/-- C10: a record whose Key field is undefined is silently dropped by
the classifier: every member of every emitted section has a defined
non-empty key, so a keyless record appears in no prefix section and
not in the unsorted section; a listing consisting only of a keyless
record yields no sections at all, so the output covers strictly fewer
records than the input. -/
theorem classify_drops_keyless (files : List S3Object) (f : S3Object)
    (hf : f.Key = none) :
    (∀ s ∈ sortFilesIntoSections files, f ∉ s.files) ∧
    sortFilesIntoSections [⟨none, none, none⟩] = [] := by
  constructor
  · intro s hs hmem
    have h := (section_mem_src files s hs f hmem).2
    rw [hasKey_none f hf] at h
    exact Bool.false_ne_true h
  · decide

theorem classify_drops_keyless_witness :
    sortFilesIntoSections [⟨none, none, none⟩] = [] :=
  (classify_drops_keyless [] ⟨none, none, none⟩ rfl).2

theorem joinAll_append {α : Type} :
    ∀ ls1 ls2 : List (List α),
      joinAll (ls1 ++ ls2) = joinAll ls1 ++ joinAll ls2 := by
  intro ls1 ls2
  induction ls1 with
  | nil => rfl
  | cons l ls ih =>
      rw [List.cons_append, joinAll_cons, joinAll_cons, ih,
        List.append_assoc]

theorem filter_hasKey_all (files : List S3Object)
    (hdef : ∀ f ∈ files, hasKey f = true) :
    files.filter hasKey = files := by
  induction files with
  | nil => rfl
  | cons f fs ih =>
      rw [List.filter_cons, hdef f (List.mem_cons_self f fs), if_pos rfl,
        ih (fun g hg => hdef g (List.mem_cons_of_mem f hg))]

theorem classify_members_perm (files : List S3Object)
    (hdef : ∀ f ∈ files, hasKey f = true) :
    (allMembers (sortFilesIntoSections files)).Perm files := by
  have hkeysnd : (((files.foldl classifyStep ([], [])).1).map
      (fun b => b.1)).Nodup := foldl_keys_nodup files [] [] (by simp)
  have hcov : ∀ f ∈ files, ∀ p, goesToBucket f p = true →
      p ∈ ((files.foldl classifyStep ([], [])).1).map (fun b => b.1) :=
    fun f hf p hgp =>
      (foldl_keys_mem files [] [] p).mpr (Or.inr ⟨f, hf, hgp⟩)
  have hlk : ∀ p, lookupBucket (files.foldl classifyStep ([], [])).1 p
      = files.filter (fun f => goesToBucket f p) := by
    intro p
    rw [foldl_lookup p files [] []]
    rfl
  have hun : (files.foldl classifyStep ([], [])).2
      = files.filter isUnsorted := by
    rw [foldl_unsorted files [] []]
    rfl
  rw [allMembers_join, sortFilesIntoSections_eq]
  simp only [hlk, hun, List.map_append, joinAll_append, List.map_map,
    Function.comp]
  have hA : (joinAll ((stableSort strLt (((files.foldl classifyStep
      ([], [])).1).map (fun b => b.1))).map
        (fun p => stableSort objLt
          (files.filter (fun f => goesToBucket f p))))).Perm
      (joinAll ((((files.foldl classifyStep ([], [])).1).map
        (fun b => b.1)).map
          (fun p => files.filter (fun f => goesToBucket f p)))) := by
    refine (joinAll_map_sort_perm objLt
      (fun p => files.filter (fun f => goesToBucket f p)) _).trans ?_
    exact joinAll_perm_of_perm _ _
      ((stableSort_perm strLt _).map
        (fun p => files.filter (fun f => goesToBucket f p)))
  have hB : (joinAll ((if 0 < (files.filter isUnsorted).length then
      [({ prefixKey := "unsorted", displayName := "Unsorted",
          files := stableSort objLt (files.filter isUnsorted) }
        : FileSection)]
      else ([] : List FileSection)).map (fun s => s.files))).Perm
      (files.filter isUnsorted) := by
    by_cases hc : 0 < (files.filter isUnsorted).length
    · rw [if_pos hc]
      simp only [List.map_cons, List.map_nil, joinAll_cons, joinAll_nil,
        List.append_nil]
      exact stableSort_perm objLt _
    · rw [if_neg hc]
      have hnil : files.filter isUnsorted = [] := by
        cases hl : files.filter isUnsorted with
        | nil => rfl
        | cons a l => rw [hl] at hc; simp at hc
      rw [hnil]
      exact List.Perm.refl _
  refine (hA.append hB).trans ?_
  refine (classify_partition_perm files _ hkeysnd hcov).trans ?_
  rw [filter_hasKey_all files hdef]

/-- C1 counterexample: the empty string is a defined key, but the
JavaScript truthiness guard drops it, and two records sharing the key
en-a both land in the EN section, so the members do not reproduce the
input key set exactly: a listing containing all three records yields
one section whose member keys are en-a twice, losing the empty key and
duplicating en-a. -/
theorem classify_key_cover_counterexample :
    ((⟨some "", none, none⟩ : S3Object).Key = some "") ∧
    sortFilesIntoSections [⟨some "", none, none⟩] = [] ∧
    sortFilesIntoSections
        [⟨some "", none, none⟩, ⟨some "en-a", some 1, none⟩,
         ⟨some "en-a", some 2, none⟩]
      = [⟨"en", "EN", [⟨some "en-a", some 1, none⟩,
          ⟨some "en-a", some 2, none⟩]⟩] := by
  refine ⟨rfl, by decide, by decide⟩

/-- C1 (amended): when every record has a defined, non-empty key and
the keys are pairwise distinct, the members of the emitted sections
carry, in some order, exactly the keys of the input: the multiset of
member keys is a permutation of the input keys and contains no
duplicate, so no key is lost and no key appears in two sections or
twice. -/
theorem classify_key_cover (files : List S3Object)
    (hdef : ∀ f ∈ files, hasKey f = true)
    (hnodup : (files.map keyOf).Nodup) :
    ((allMembers (sortFilesIntoSections files)).map keyOf).Perm
      (files.map keyOf) ∧
    ((allMembers (sortFilesIntoSections files)).map keyOf).Nodup := by
  have hm := (classify_members_perm files hdef).map keyOf
  exact ⟨hm, hm.nodup_iff.mpr hnodup⟩

theorem classify_key_cover_witness :
    ((allMembers (sortFilesIntoSections
        [⟨some "en-a", none, none⟩, ⟨some "b.txt", none, none⟩])).map
      keyOf).Perm
      (([⟨some "en-a", none, none⟩, ⟨some "b.txt", none, none⟩]
        : List S3Object).map keyOf) ∧
    ((allMembers (sortFilesIntoSections
        [⟨some "en-a", none, none⟩, ⟨some "b.txt", none, none⟩])).map
      keyOf).Nodup :=
  classify_key_cover
    [⟨some "en-a", none, none⟩, ⟨some "b.txt", none, none⟩]
    (by decide) (by decide)

theorem pairwise_strLt_of_nodup :
    ∀ l : List String, l.Pairwise (fun a b => strLt b a = false) →
      l.Nodup → l.Pairwise (fun a b => strLt a b = true) := by
  intro l
  induction l with
  | nil => intro _ _; exact List.Pairwise.nil
  | cons a as ih =>
      intro hp hnd
      obtain ⟨h1, h2⟩ := List.pairwise_cons.mp hp
      obtain ⟨h3, h4⟩ := List.nodup_cons.mp hnd
      refine List.pairwise_cons.mpr ⟨?_, ih h2 h4⟩
      intro b hb
      cases hlt : strLt a b with
      | true => rfl
      | false =>
          have hab : a = b := strLt_conn a b hlt (h1 b hb)
          rw [← hab] at hb
          exact absurd hb h3

/-- C3: the classifier emits all prefix-keyed sections first, in
strictly ascending code-point order of their two-letter lowercase
prefixes, and the unsorted section, when present, comes last; the
unsorted section is present exactly when some record with a defined
non-empty key fails the prefix match. -/
theorem classify_section_order (files : List S3Object) :
    ∃ ps : List FileSection,
      sortFilesIntoSections files
          = ps ++ (if ∃ f ∈ files, isUnsorted f = true then
              [{ prefixKey := "unsorted", displayName := "Unsorted",
                 files := stableSort objLt (files.filter isUnsorted) }]
            else []) ∧
      (ps.map (fun s => s.prefixKey)).Pairwise
        (fun a b => strLt a b = true) ∧
      (∀ s ∈ ps, ∃ c1 c2, s.prefixKey = String.mk [c1, c2] ∧
        isLowerAlpha c1 = true ∧ isLowerAlpha c2 = true) := by
  refine ⟨(stableSort strLt (((files.foldl classifyStep ([], [])).1).map
      (fun b => b.1))).map (fun p =>
        { prefixKey := p, displayName := strToUpper p,
          files := stableSort objLt (lookupBucket
            (files.foldl classifyStep ([], [])).1 p) }), ?_, ?_, ?_⟩
  · rw [sortFilesIntoSections_eq]
    congr 1
    have hun : (files.foldl classifyStep ([], [])).2
        = files.filter isUnsorted := by
      rw [foldl_unsorted files [] []]
      rfl
    rw [hun]
    have hiff : (0 < (files.filter isUnsorted).length) ↔
        (∃ f ∈ files, isUnsorted f = true) := by
      constructor
      · intro h
        cases hl : files.filter isUnsorted with
        | nil => rw [hl] at h; simp at h
        | cons a l =>
            have ha : a ∈ files.filter isUnsorted := by
              rw [hl]
              exact List.mem_cons_self a l
            obtain ⟨hmem, hiu⟩ := List.mem_filter.mp ha
            exact ⟨a, hmem, hiu⟩
      · rintro ⟨f, hf, hiu⟩
        have hmem : f ∈ files.filter isUnsorted :=
          List.mem_filter.mpr ⟨hf, hiu⟩
        exact List.length_pos.mpr (fun hnil => by
          rw [hnil] at hmem
          simp at hmem)
    exact if_congr hiff rfl rfl
  · have hm : (((stableSort strLt (((files.foldl classifyStep
        ([], [])).1).map (fun b => b.1))).map (fun p =>
          ({ prefixKey := p, displayName := strToUpper p,
             files := stableSort objLt (lookupBucket
               (files.foldl classifyStep ([], [])).1 p) }
            : FileSection))).map (fun s => s.prefixKey))
        = stableSort strLt (((files.foldl classifyStep ([], [])).1).map
            (fun b => b.1)) := by
      rw [List.map_map]
      exact List.map_id' _
    rw [hm]
    apply pairwise_strLt_of_nodup
    · exact stableSort_pairwise strLt strLt_trans strLt_irrefl _
    · exact ((stableSort_perm strLt _).nodup_iff).mpr
        (foldl_keys_nodup files [] [] (by simp))
  · intro s hs
    obtain ⟨p, hp, hps⟩ := List.mem_map.mp hs
    have hp2 : p ∈ ((files.foldl classifyStep ([], [])).1).map
        (fun b => b.1) :=
      (stableSort_perm strLt _).mem_iff.mp hp
    rcases (foldl_keys_mem files [] [] p).mp hp2 with h | ⟨f, hf, hgo⟩
    · simp at h
    · rw [← hps]
      exact prefixMatch_shape (keyOf f) p
        (goesToBucket_prefixMatch f p hgo)

theorem filterMap_nodup_inj {α β : Type} (g : α → Option β) :
    ∀ l : List α, (l.filterMap g).Nodup →
      ∀ a ∈ l, ∀ b ∈ l, ∀ k, g a = some k → g b = some k → a = b := by
  intro l
  induction l with
  | nil =>
      intro _ a ha
      simp at ha
  | cons x xs ih =>
      intro hnd a ha b hb k hga hgb
      cases hgx : g x with
      | none =>
          simp only [List.filterMap_cons, hgx] at hnd
          rcases List.mem_cons.mp ha with rfl | ha2
          · rw [hga] at hgx
            exact absurd hgx (by simp)
          · rcases List.mem_cons.mp hb with rfl | hb2
            · rw [hgb] at hgx
              exact absurd hgx (by simp)
            · exact ih hnd a ha2 b hb2 k hga hgb
      | some v =>
          simp only [List.filterMap_cons, hgx] at hnd
          obtain ⟨hv, hnd2⟩ := List.nodup_cons.mp hnd
          rcases List.mem_cons.mp ha with rfl | ha2
          · rcases List.mem_cons.mp hb with rfl | hb2
            · rfl
            · have hvk : v = k := by
                rw [hga] at hgx
                exact (Option.some.inj hgx).symm
              subst hvk
              exact absurd (List.mem_filterMap.mpr ⟨b, hb2, hgb⟩) hv
          · rcases List.mem_cons.mp hb with rfl | hb2
            · have hvk : v = k := by
                rw [hgb] at hgx
                exact (Option.some.inj hgx).symm
              subst hvk
              exact absurd (List.mem_filterMap.mpr ⟨a, ha2, hga⟩) hv
            · exact ih hnd2 a ha2 b hb2 k hga hgb

theorem filterMap_key_eq_map_keyOf :
    ∀ l : List S3Object, (∀ x ∈ l, hasKey x = true) →
      l.filterMap (fun f => f.Key) = l.map keyOf := by
  intro l
  induction l with
  | nil => intro _; rfl
  | cons x xs ih =>
      intro hall
      obtain ⟨k, hk, _⟩ :=
        hasKey_some_exists x (hall x (List.mem_cons_self x xs))
      simp only [List.filterMap_cons, hk, List.map_cons]
      rw [ih (fun y hy => hall y (List.mem_cons_of_mem x hy)),
        keyOf_some x k hk]

theorem filter_keyed_nodup (files : List S3Object)
    (hnodup : (files.filterMap (fun f => f.Key)).Nodup)
    (pred : S3Object → Bool)
    (hkey : ∀ x, pred x = true → hasKey x = true) :
    (files.filter pred).Nodup := by
  have hall : ∀ x ∈ files.filter pred, hasKey x = true := fun x hx =>
    hkey x (List.mem_filter.mp hx).2
  have hsub : List.Sublist
      ((files.filter pred).filterMap (fun f => f.Key))
      (files.filterMap (fun f => f.Key)) :=
    (List.filter_sublist files).filterMap _
  have h1 : ((files.filter pred).filterMap (fun f => f.Key)).Nodup :=
    hnodup.sublist hsub
  rw [filterMap_key_eq_map_keyOf _ hall] at h1
  exact h1.of_map

theorem pairwise_objLt_strict :
    ∀ l : List S3Object, l.Pairwise (fun a b => objLt b a = false) →
      l.Nodup →
      (∀ a ∈ l, ∀ b ∈ l, keyOf a = keyOf b → a = b) →
      l.Pairwise (fun a b => objLt a b = true) := by
  intro l
  induction l with
  | nil =>
      intro _ _ _
      exact List.Pairwise.nil
  | cons a as ih =>
      intro hp hnd hinj
      obtain ⟨h1, h2⟩ := List.pairwise_cons.mp hp
      obtain ⟨h3, h4⟩ := List.nodup_cons.mp hnd
      refine List.pairwise_cons.mpr ⟨?_, ih h2 h4 (fun x hx y hy =>
        hinj x (List.mem_cons_of_mem a hx) y (List.mem_cons_of_mem a hy))⟩
      intro b hb
      cases hlt : objLt a b with
      | true => rfl
      | false =>
          have hkey : keyOf a = keyOf b := objLt_key_eq a b hlt (h1 b hb)
          have hab : a = b := hinj a (List.mem_cons_self a as) b
            (List.mem_cons_of_mem a hb) hkey
          rw [← hab] at hb
          exact absurd hb h3

/-- C4: when the defined keys of the input are pairwise distinct, the
members of every emitted section are in strictly ascending code-point
order of their keys, with no ties; the classifier is a pure function
of its argument, so the ordering is identical on every call with the
same input. -/
theorem classify_section_sorted (files : List S3Object)
    (hnodup : (files.filterMap (fun f => f.Key)).Nodup) :
    ∀ s ∈ sortFilesIntoSections files,
      s.files.Pairwise (fun a b => objLt a b = true) := by
  intro s hs
  have hinj0 := filterMap_nodup_inj (fun f => f.Key) files hnodup
  have main : ∀ pred : S3Object → Bool,
      (∀ x, pred x = true → hasKey x = true) →
      (stableSort objLt (files.filter pred)).Pairwise
        (fun a b => objLt a b = true) := by
    intro pred hkey
    apply pairwise_objLt_strict
    · exact stableSort_pairwise objLt objLt_trans objLt_irrefl _
    · exact ((stableSort_perm objLt _).nodup_iff).mpr
        (filter_keyed_nodup files hnodup pred hkey)
    · intro x hx y hy hxy
      have hx2 := (stableSort_perm objLt _).mem_iff.mp hx
      have hy2 := (stableSort_perm objLt _).mem_iff.mp hy
      obtain ⟨hxf, hxp⟩ := List.mem_filter.mp hx2
      obtain ⟨hyf, hyp⟩ := List.mem_filter.mp hy2
      obtain ⟨kx, hkx, _⟩ := hasKey_some_exists x (hkey x hxp)
      obtain ⟨ky, hky, _⟩ := hasKey_some_exists y (hkey y hyp)
      have hkk : kx = ky := by
        have e1 : keyOf x = kx := keyOf_some x kx hkx
        have e2 : keyOf y = ky := keyOf_some y ky hky
        rw [← e1, ← e2]
        exact hxy
      exact hinj0 x hxf y hyf kx hkx
        (show y.Key = some kx by rw [hky, hkk])
  rcases section_files_form files s hs with ⟨p, hform⟩ | hform
  · rw [hform]
    exact main _ (fun x hx => goesToBucket_hasKey x p hx)
  · rw [hform]
    exact main isUnsorted (fun x hx => isUnsorted_hasKey x hx)

theorem classify_section_sorted_witness :
    (⟨"en", "EN", [⟨some "en-a", none, none⟩, ⟨some "en-b", none, none⟩]⟩
      : FileSection).files.Pairwise (fun a b => objLt a b = true) :=
  classify_section_sorted
    [⟨some "en-b", none, none⟩, ⟨some "en-a", none, none⟩] (by decide)
    ⟨"en", "EN", [⟨some "en-a", none, none⟩, ⟨some "en-b", none, none⟩]⟩
    (by decide)

/-- C9 counterexample: the member sort is stable and never reorders
records whose keys compare equal, so two distinct records sharing the
key en-a keep their relative input order inside the EN section;
transposing them in the input is a permutation of the same multiset
yet changes the output. -/
theorem classify_perm_counterexample :
    (([⟨some "en-a", some 1, none⟩, ⟨some "en-a", some 2, none⟩]
        : List S3Object).Perm
      [⟨some "en-a", some 2, none⟩, ⟨some "en-a", some 1, none⟩]) ∧
    sortFilesIntoSections
        [⟨some "en-a", some 1, none⟩, ⟨some "en-a", some 2, none⟩]
      ≠ sortFilesIntoSections
        [⟨some "en-a", some 2, none⟩, ⟨some "en-a", some 1, none⟩] := by
  constructor
  · exact List.Perm.swap _ _ _
  · decide

/-- C9 (amended): the classifier is a pure function of its argument in
this embedding, and when no two records of the input carry the same
defined key its output is invariant under permutation of the input:
permuted listings yield the same sections in the same order with the
same members in the same order. -/
theorem classify_perm_invariant (l1 l2 : List S3Object)
    (hperm : l1.Perm l2)
    (hnodup : (l1.filterMap (fun f => f.Key)).Nodup) :
    sortFilesIntoSections l1 = sortFilesIntoSections l2 := by
  have hk1nd : (((l1.foldl classifyStep ([], [])).1).map
      (fun b => b.1)).Nodup := foldl_keys_nodup l1 [] [] (by simp)
  have hk2nd : (((l2.foldl classifyStep ([], [])).1).map
      (fun b => b.1)).Nodup := foldl_keys_nodup l2 [] [] (by simp)
  have hkmem : ∀ p,
      p ∈ ((l1.foldl classifyStep ([], [])).1).map (fun b => b.1) ↔
      p ∈ ((l2.foldl classifyStep ([], [])).1).map (fun b => b.1) := by
    intro p
    rw [foldl_keys_mem l1 [] [] p, foldl_keys_mem l2 [] [] p]
    constructor
    · rintro (h | ⟨f, hf, hg⟩)
      · simp at h
      · exact Or.inr ⟨f, hperm.mem_iff.mp hf, hg⟩
    · rintro (h | ⟨f, hf, hg⟩)
      · simp at h
      · exact Or.inr ⟨f, hperm.mem_iff.mpr hf, hg⟩
  have hkeysperm : ((((l1.foldl classifyStep ([], [])).1).map
      (fun b => b.1))).Perm
      (((l2.foldl classifyStep ([], [])).1).map (fun b => b.1)) :=
    (List.perm_ext_iff_of_nodup hk1nd hk2nd).mpr hkmem
  have hsortedkeys :
      stableSort strLt (((l1.foldl classifyStep ([], [])).1).map
        (fun b => b.1))
      = stableSort strLt (((l2.foldl classifyStep ([], [])).1).map
        (fun b => b.1)) := by
    apply sorted_perm_eq strLt
    · exact ((stableSort_perm strLt _).trans hkeysperm).trans
        (stableSort_perm strLt _).symm
    · exact stableSort_pairwise strLt strLt_trans strLt_irrefl _
    · exact stableSort_pairwise strLt strLt_trans strLt_irrefl _
    · intro a _ b _ hab hba
      exact strLt_conn a b hab hba
  have hinj0 := filterMap_nodup_inj (fun f => f.Key) l1 hnodup
  have hsortfilter : ∀ pred : S3Object → Bool,
      (∀ x, pred x = true → hasKey x = true) →
      stableSort objLt (l1.filter pred)
        = stableSort objLt (l2.filter pred) := by
    intro pred hkey
    apply sorted_perm_eq objLt
    · exact ((stableSort_perm objLt _).trans (hperm.filter _)).trans
        (stableSort_perm objLt _).symm
    · exact stableSort_pairwise objLt objLt_trans objLt_irrefl _
    · exact stableSort_pairwise objLt objLt_trans objLt_irrefl _
    · intro a ha b hb hab hba
      have ha2 := (stableSort_perm objLt _).mem_iff.mp ha
      have hb2 := (stableSort_perm objLt _).mem_iff.mp hb
      obtain ⟨haf, hap⟩ := List.mem_filter.mp ha2
      obtain ⟨hbf, hbp⟩ := List.mem_filter.mp hb2
      have hkeq : keyOf a = keyOf b := objLt_key_eq a b hab hba
      obtain ⟨ka, hka, _⟩ := hasKey_some_exists a (hkey a hap)
      obtain ⟨kb, hkb, _⟩ := hasKey_some_exists b (hkey b hbp)
      have hkk : ka = kb := by
        have e1 := keyOf_some a ka hka
        have e2 := keyOf_some b kb hkb
        rw [← e1, ← e2]
        exact hkeq
      exact hinj0 a haf b hbf ka hka
        (show b.Key = some ka by rw [hkb, hkk])
  have hbucket : ∀ p,
      stableSort objLt (l1.filter (fun f => goesToBucket f p))
        = stableSort objLt (l2.filter (fun f => goesToBucket f p)) :=
    fun p => hsortfilter _ (fun x hx => goesToBucket_hasKey x p hx)
  have hunsorted : stableSort objLt (l1.filter isUnsorted)
      = stableSort objLt (l2.filter isUnsorted) :=
    hsortfilter isUnsorted (fun x hx => isUnsorted_hasKey x hx)
  have hulen : (l1.filter isUnsorted).length
      = (l2.filter isUnsorted).length := (hperm.filter _).length_eq
  have hlk1 : ∀ p, lookupBucket (l1.foldl classifyStep ([], [])).1 p
      = l1.filter (fun f => goesToBucket f p) := fun p => by
    rw [foldl_lookup p l1 [] []]
    rfl
  have hlk2 : ∀ p, lookupBucket (l2.foldl classifyStep ([], [])).1 p
      = l2.filter (fun f => goesToBucket f p) := fun p => by
    rw [foldl_lookup p l2 [] []]
    rfl
  have hun1 : (l1.foldl classifyStep ([], [])).2 = l1.filter isUnsorted := by
    rw [foldl_unsorted l1 [] []]
    rfl
  have hun2 : (l2.foldl classifyStep ([], [])).2 = l2.filter isUnsorted := by
    rw [foldl_unsorted l2 [] []]
    rfl
  rw [sortFilesIntoSections_eq l1, sortFilesIntoSections_eq l2]
  simp only [hlk1, hlk2, hun1, hun2]
  rw [hsortedkeys]
  congr 1
  · apply List.map_congr_left
    intro p _
    rw [hbucket p]
  · rw [hulen, hunsorted]

theorem classify_perm_invariant_witness :
    sortFilesIntoSections
        [⟨some "en-b", none, none⟩, ⟨some "en-a", none, none⟩]
      = sortFilesIntoSections
        [⟨some "en-a", none, none⟩, ⟨some "en-b", none, none⟩] :=
  classify_perm_invariant
    [⟨some "en-b", none, none⟩, ⟨some "en-a", none, none⟩]
    [⟨some "en-a", none, none⟩, ⟨some "en-b", none, none⟩]
    (List.Perm.swap _ _ _) (by decide)
